import Mathlib

/-!
Verification of the Diaryx backend core (note metadata parser, sync merge
policy, visibility resolution, shared-note discovery).

Strings from the TypeScript source are modelled as `List Char`.  JavaScript
string operations (`trim`, `toLowerCase`, `split`, the frontmatter regex, the
YAML-subset regexes) are translated into executable Lean functions below; the
regex translations follow JavaScript backtracking semantics (greedy and lazy
quantifiers) specialised to the concrete patterns used by the source.
`toLowerCase` is modelled by its action on ASCII, which is the case mapping
relevant to the email and term data handled by this code.
-/

set_option maxRecDepth 10000

abbrev Str := List Char

/-- The JavaScript whitespace class used by `\s`, `trim`, `trimStart`:
space, tab, LF, VT, FF, CR, NBSP, and the Unicode space separators plus BOM. -/
def jsIsSpace (c : Char) : Bool :=
  c.toNat = 32 || c.toNat = 9 || c.toNat = 10 || c.toNat = 13 || c.toNat = 11 ||
  c.toNat = 12 || c.toNat = 0xa0 || c.toNat = 0x1680 ||
  (0x2000 ≤ c.toNat && c.toNat ≤ 0x200a) || c.toNat = 0x2028 || c.toNat = 0x2029 ||
  c.toNat = 0x202f || c.toNat = 0x205f || c.toNat = 0x3000 || c.toNat = 0xfeff

/-- JavaScript line terminators, which `.` does not match and `$` stops at. -/
def jsIsLineTerm (c : Char) : Bool :=
  c.toNat = 10 || c.toNat = 13 || c.toNat = 0x2028 || c.toNat = 0x2029

/-- ASCII case mapping of JavaScript `toLowerCase` on a single character. -/
def jsCharLower (c : Char) : Char :=
  if 65 ≤ c.toNat ∧ c.toNat ≤ 90 then Char.ofNat (c.toNat + 32) else c

/-- JavaScript `toLowerCase` (ASCII fragment). -/
def jsLower (l : Str) : Str := l.map jsCharLower

/-- JavaScript `trimStart`. -/
def jsTrimStart (l : Str) : Str := l.dropWhile jsIsSpace

/-- JavaScript `trimEnd`. -/
def jsTrimEnd (l : Str) : Str := (l.reverse.dropWhile jsIsSpace).reverse

/-- JavaScript `trim`. -/
def jsTrim (l : Str) : Str := jsTrimEnd (jsTrimStart l)

/-- Elements of `l` not already in `seen`, first occurrences only. -/
def jsDedupAux {α : Type} [DecidableEq α] : List α → List α → List α
  | [], _ => []
  | a :: as, seen =>
    if seen.contains a then jsDedupAux as seen
    else a :: jsDedupAux as (a :: seen)

/-- Deduplication keeping the first occurrence of each element, as performed by
`Array.from(new Set(list))` in JavaScript. -/
def jsDedup {α : Type} [DecidableEq α] (l : List α) : List α := jsDedupAux l []

/-- Lookup in a JavaScript object modelled as an insertion-ordered
association list (first matching key wins; keys are unique by construction). -/
def objGet {κ α : Type} [DecidableEq κ] (m : List (κ × α)) (k : κ) : Option α :=
  (m.find? (fun p => p.1 = k)).map (·.2)

/-- Property assignment `m[k] = v` on a JavaScript object: an existing key keeps
its position and gets the new value, a new key is appended. -/
def objSet {κ α : Type} [DecidableEq κ] (m : List (κ × α)) (k : κ) (v : α) :
    List (κ × α) :=
  if m.any (fun p => p.1 = k) then
    m.map (fun p => if p.1 = k then (k, v) else p)
  else m ++ [(k, v)]

/-- `Object.fromEntries`: repeated assignment, so a duplicated key keeps its
first position with the last value. -/
def jsFromEntries {κ α : Type} [DecidableEq κ] (l : List (κ × α)) : List (κ × α) :=
  l.foldl (fun m p => objSet m p.1 p.2) []

/-- `yaml.split(/\r?\n/)`: split on LF, consuming an immediately preceding CR. -/
def splitLines : Str → List Str
  | [] => [[]]
  | '\r' :: '\n' :: rest => [] :: splitLines rest
  | '\n' :: rest => [] :: splitLines rest
  | c :: rest =>
    match splitLines rest with
    | l :: ls => (c :: l) :: ls
    | [] => [[c]]

/-! ## Frontmatter splitter (`extractFrontmatter` in `src/index.ts`)

The source tests `markdown.startsWith("---")` and then applies the regex
`/^---\s*\n([\s\S]*?)\n---\s*\n?/`.  `fmMatch` is a direct operational model of
that regex: after the literal dashes, the greedy `\s*` backtracks over the
whitespace run so that the following `\n` binds to the last possible newline of
the run that still lets the rest of the pattern match; the lazy capture group
stops at the first later occurrence of `"\n---"`; the trailing `\s*\n?` then
always succeeds by consuming the maximal whitespace run. -/

/-- Suffixes of the whitespace run that follow each of its `\n` characters, in
the order the backtracking `\s*\n` tries them (latest newline first). -/
def nlSuffixes : Str → List Str
  | [] => []
  | c :: rest => nlSuffixes rest ++ (if c = '\n' then [rest] else [])

/-- First occurrence of the literal `"\n---"`: returns the text before it and
the text after it, or `none`. -/
def findNlDashes : Str → Option (Str × Str)
  | '\n' :: '-' :: '-' :: '-' :: rest => some ([], rest)
  | c :: rest => (findNlDashes rest).map (fun p => (c :: p.1, p.2))
  | [] => none

/-- Try each backtracking position of the opening `\s*\n` in order; for the
first one whose remainder contains `"\n---"`, return the lazy capture and the
text following the whole match (the trailing `\s*\n?` eats the maximal
whitespace run). -/
def fmTryOpen : List Str → Str → Option (Str × Str)
  | [], _ => none
  | w2 :: more, r =>
    match findNlDashes (w2 ++ r) with
    | some (yaml, after) => some (yaml, after.dropWhile jsIsSpace)
    | none => fmTryOpen more r

/-- Operational model of `markdown.match(/^---\s*\n([\s\S]*?)\n---\s*\n?/)`:
`some (yaml, body)` gives the captured group and the input minus the whole
match. -/
def fmMatch (s : Str) : Option (Str × Str) :=
  match s with
  | '-' :: '-' :: '-' :: t =>
    fmTryOpen (nlSuffixes (t.takeWhile jsIsSpace)) (t.dropWhile jsIsSpace)
  | _ => none

/-- Does the string start with the three-character delimiter? -/
def startsWithDashes (s : Str) : Bool :=
  match s with
  | '-' :: '-' :: '-' :: _ => true
  | _ => false

/-- `extractFrontmatter`: frontmatter block (if the exact shape is present) and
body. -/
def extractFrontmatter (s : Str) : Option Str × Str :=
  if startsWithDashes s then
    match fmMatch s with
    | some (yaml, body) => (some yaml, body)
    | none => (none, s)
  else (none, s)

/-! ## YAML subset parser (`parseYamlSubset` in `src/index.ts`) -/

/-- Character class `[A-Za-z0-9_\-]` of a top-level key. -/
def isKeyChar (c : Char) : Bool :=
  ('A' ≤ c && c ≤ 'Z') || ('a' ≤ c && c ≤ 'z') || ('0' ≤ c && c ≤ '9') ||
  c = '_' || c = '-'

/-- Tail of `\s*(.*)$` applied to `l`: the greedy `\s*` eats leading whitespace
and `(.*)$` must reach the end of the line without crossing a line terminator
(the only way a terminator can survive inside a line is a lone CR).  Returns
`none` when the regex tail cannot match. -/
def restAfterWs (l : Str) : Option Str :=
  let r := l.dropWhile jsIsSpace
  if r.any jsIsLineTerm then none else some r

/-- Full match of `/^([A-Za-z0-9_\-]+)\s*:\s*(.*)$/` on a line: the key and the
text after the colon (with its leading whitespace stripped by `\s*`). -/
def topKeyMatch (l : Str) : Option (Str × Str) :=
  let key := l.takeWhile isKeyChar
  if key.isEmpty then none
  else
    match (l.dropWhile isKeyChar).dropWhile jsIsSpace with
    | ':' :: rest => (restAfterWs rest).map (fun r => (key, r))
    | _ => none

/-- Prefix test `/^[A-Za-z0-9_\-]+\s*:/.test(sub)` used to stop the
`visibility_emails` scan. -/
def isTopKeyLine (l : Str) : Bool :=
  !(l.takeWhile isKeyChar).isEmpty &&
    match (l.dropWhile isKeyChar).dropWhile jsIsSpace with
    | ':' :: _ => true
    | _ => false

/-- Match of `/^\s{2}([^:\r\n]+)\s*:\s*(.*)$/` on a line: exactly two
whitespace characters, a non-empty colon-free capture (whose trim is the term),
a colon, then the value text. -/
def mmMatch (l : Str) : Option (Str × Str) :=
  match l with
  | c1 :: c2 :: rest =>
    if jsIsSpace c1 && jsIsSpace c2 then
      let cap := rest.takeWhile (fun c => c ≠ ':' && !jsIsLineTerm c)
      if cap.isEmpty then none
      else
        match rest.dropWhile (fun c => c ≠ ':' && !jsIsLineTerm c) with
        | ':' :: rest2 => (restAfterWs rest2).map (fun r => (cap, r))
        | _ => none
    else none
  | _ => none

/-- Match of the block-list item regex `"^" + " ".repeat(indent) + "-\\s*(.*)$"`
on a line: exactly `indent` literal spaces, a dash, then the item text. -/
def dashMatch (indent : Nat) (l : Str) : Option Str :=
  if l.take indent = List.replicate indent ' ' then
    match l.drop indent with
    | '-' :: rest => restAfterWs rest
    | _ => none
  else none

/-- `inner.split(",")`: always non-empty, empty pieces preserved. -/
def splitOnComma : Str → List Str
  | [] => [[]]
  | ',' :: rest => [] :: splitOnComma rest
  | c :: rest =>
    match splitOnComma rest with
    | l :: ls => (c :: l) :: ls
    | [] => [[c]]

/-- `parseInlineArray`: trim, strip one leading `[` and one trailing `]`, split
on commas, trim the pieces and drop the empty ones. -/
def parseInlineArray (v : Str) : List Str :=
  let t := jsTrim v
  let a := match t with
    | '[' :: r => r
    | _ => t
  let inner := if a.getLast? = some ']' then a.dropLast else a
  if (jsTrim inner).isEmpty then []
  else ((splitOnComma inner).map jsTrim).filter (fun s => !s.isEmpty)

/-- `parseBlockArray(lines, start, indent)`: consume consecutive matching item
lines starting at index `start`; returns the non-empty trimmed items and the
index `end` of the last consumed line (`start - 1` when nothing matched, as in
the source). -/
def parseBlockArray (lines : List Str) (start indent : Nat) : List Str × Nat :=
  let matched := (lines.drop start).takeWhile (fun l => (dashMatch indent l).isSome)
  let items := (matched.filterMap (fun l => (dashMatch indent l).map jsTrim)).filter
    (fun s => !s.isEmpty)
  (items, start + matched.length - 1)

/-- Result of `parseYamlSubset`: the two recognised fields, each possibly
absent.  `visibility` is `string | string[]` in the source. -/
inductive VisValue : Type
  | str (s : Str)
  | arr (l : List Str)
deriving DecidableEq, Repr

structure ParsedSubset where
  visibility : Option VisValue := none
  visibility_emails : Option (List (Str × List Str)) := none
deriving DecidableEq, Repr

/-- The inner `for (let j = i + 1; ...)` loop of the `visibility_emails`
branch.  Arguments: fuel, current `j`, accumulated map, current value of the
outer index `i`.  Returns the final map and the final outer index. -/
def veInner (lines : List Str) : Nat → Nat → List (Str × List Str) → Nat →
    List (Str × List Str) × Nat
  | 0, _, map, i => (map, i)
  | fuel + 1, j, map, i =>
    match lines.get? j with
    | none => (map, i)
    | some sub =>
      if isTopKeyLine sub || startsWithDashes sub then (map, j - 1)
      else
        match mmMatch sub with
        | none => veInner lines fuel (j + 1) map i
        | some (capturedTerm, rawAfter) =>
          let term := jsTrim capturedTerm
          if term.isEmpty then veInner lines fuel (j + 1) map i
          else
            let after := jsTrim rawAfter
            if after.head? = some '[' then
              veInner lines fuel (j + 1) (objSet map term (parseInlineArray after)) j
            else if after.isEmpty then
              let r := parseBlockArray lines (j + 1) 4
              veInner lines fuel (r.2 + 1) (objSet map term r.1) r.2
            else
              veInner lines fuel (j + 1) (objSet map term [after]) j

/-- The outer `for (let i = 0; ...)` loop of `parseYamlSubset`. -/
def pyMain (lines : List Str) : Nat → Nat → ParsedSubset → ParsedSubset
  | 0, _, st => st
  | fuel + 1, i, st =>
    match lines.get? i with
    | none => st
    | some line =>
      if (jsTrim line).isEmpty || (jsTrim line).head? = some '#' then
        pyMain lines fuel (i + 1) st
      else
        match topKeyMatch line with
        | none => pyMain lines fuel (i + 1) st
        | some (key, rest) =>
          if key = "visibility".toList then
            if rest.isEmpty then
              let r := parseBlockArray lines (i + 1) 2
              pyMain lines fuel (r.2 + 1)
                (if !r.1.isEmpty then { st with visibility := some (.arr r.1) } else st)
            else if (jsTrim rest).head? = some '[' then
              pyMain lines fuel (i + 1)
                { st with visibility := some (.arr (parseInlineArray rest)) }
            else
              let value := jsTrim rest
              pyMain lines fuel (i + 1)
                (if !value.isEmpty then { st with visibility := some (.str value) } else st)
          else if key = "visibility_emails".toList then
            let r := veInner lines (lines.length + 1) (i + 1) [] i
            pyMain lines fuel (r.2 + 1)
              (if !r.1.isEmpty then { st with visibility_emails := some r.1 } else st)
          else
            pyMain lines fuel (i + 1) st

/-- `parseYamlSubset(yaml)`: `{}` when the argument is absent, otherwise the
line-by-line scan. -/
def parseYamlSubset : Option Str → ParsedSubset
  | none => {}
  | some yaml =>
    let lines := splitLines yaml
    pyMain lines (lines.length + 1) 0 {}

/-! ## Note record model and construction (`DiaryxNote`, `parseDiaryxString`) -/

structure DiaryxNote where
  id : Str
  body : Str
  visibility : Option VisValue
  visibility_emails : Option (List (Str × List Str))
  frontmatter : Option Str
  sourceName : Option Str
  autoUpdateTimestamp : Bool
  lastModified : Int
deriving DecidableEq, Repr

/-- `parseDiaryxString(fileContents, options)`.  The caller-supplied `id` is
explicit here (the claims only exercise that path; the `randomId()` fallback is
nondeterministic I/O).  `now` stands for `Date.now()`. -/
def parseDiaryxString (fileContents : Str) (id : Str) (sourceName : Option Str)
    (now : Int) : DiaryxNote :=
  let fm := extractFrontmatter fileContents
  let subset := parseYamlSubset fm.1
  { id := id
    body := jsTrimStart fm.2
    visibility := subset.visibility
    visibility_emails := subset.visibility_emails
    frontmatter := match fm.1 with
      | some y => if !(jsTrim y).isEmpty then some y else none
      | none => none
    sourceName := sourceName
    autoUpdateTimestamp := false
    lastModified := now }

/-! ## Visibility resolver (`toVisibilityArray`, `hasSharedAccess`) -/

/-- `toVisibilityArray`: normalise the `visibility` field into a list of
non-empty trimmed strings. -/
def toVisibilityArray : Option VisValue → List Str
  | some (.arr l) => (l.map jsTrim).filter (fun s => !s.isEmpty)
  | some (.str s) =>
    let normalized := jsTrim s
    if !normalized.isEmpty then [normalized] else []
  | none => []

/-- `hasSharedAccess(note, email)`: the access decision, computed from the
note-embedded metadata only. -/
def hasSharedAccess (note : DiaryxNote) (email : Str) : Bool :=
  let terms := toVisibilityArray note.visibility
  if terms.isEmpty then false
  else
    let map := note.visibility_emails.getD []
    let lowerEmail := jsLower (jsTrim email)
    let normalizedMap := map.foldl (fun nm p => objSet nm (jsLower (jsTrim p.1)) p.2) []
    terms.any (fun term =>
      let t := jsTrim term
      if t.isEmpty then false
      else
        (match objGet map t with
          | some direct => direct.any (fun entry => jsLower entry = lowerEmail)
          | none => false) ||
        (match objGet normalizedMap (jsLower t) with
          | some byCase => byCase.any (fun entry => jsLower entry = lowerEmail)
          | none => false))

/-! ## Persistent store model (`note-storage` tables)

The two tables `diaryx_note` (primary key `(user_id, id)`) and
`diaryx_visibility_term` (primary key `(user_id, term)`) are modelled as
association lists keyed by those primary keys. -/

structure NoteRow where
  markdown : Str
  source_name : Option Str
  last_modified : Int
deriving DecidableEq, Repr

structure Store where
  notes : List ((Str × Str) × NoteRow)
  terms : List ((Str × Str) × List Str)
deriving DecidableEq, Repr

def emptyStore : Store := { notes := [], terms := [] }

/-- Input shape of `upsertNotesForUser`.  `lastModified = none` models a
missing or non-finite timestamp (replaced by `Date.now()` at write time). -/
structure SyncInputNote where
  id : Str
  markdown : Str
  sourceName : Option Str
  lastModified : Option Int
deriving DecidableEq, Repr

/-- One conditional upsert: `INSERT ... ON CONFLICT (user_id, id) DO UPDATE ...
WHERE EXCLUDED.last_modified >= diaryx_note.last_modified`. -/
def condUpsert (rows : List ((Str × Str) × NoteRow)) (key : Str × Str)
    (markdown : Str) (sourceName : Option Str) (lm : Int) :
    List ((Str × Str) × NoteRow) :=
  match rows with
  | [] => [(key, ⟨markdown, sourceName, lm⟩)]
  | (k, r) :: rest =>
    if k = key then
      if r.last_modified ≤ lm then (k, ⟨markdown, sourceName, lm⟩) :: rest
      else (k, r) :: rest
    else (k, r) :: condUpsert rest key markdown sourceName lm

/-- `upsertNotesForUser(userId, notes)`: early return on a null or empty list,
otherwise one conditional write per note in input order.  `now` stands for
`Date.now()`. -/
def upsertNotesForUser (now : Int) (userId : Str)
    (notes : Option (List SyncInputNote)) (store : Store) : Store :=
  match notes with
  | none => store
  | some l =>
    if l.isEmpty then store
    else
      l.foldl (fun st note =>
        { st with notes := (condUpsert st.notes (userId, note.id) note.markdown
            note.sourceName (note.lastModified.getD now)) }) store

/-- Lookup of the persisted note row for `(owner, id)`. -/
def noteLookup (store : Store) (userId id : Str) : Option NoteRow :=
  objGet store.notes (userId, id)

/-- `updateVisibilityTermsForUser(userId, terms)`: normalise the email lists
(trim, lower-case, drop empties, deduplicate keeping first occurrence), delete
all rows of the user, then insert the normalised entries. -/
def updateVisibilityTermsForUser (userId : Str) (terms : List (Str × List Str))
    (store : Store) : Store :=
  let termEntries := terms.map (fun p =>
    (p.1, jsDedup ((p.2.map (fun email => jsLower (jsTrim email))).filter
      (fun s => !s.isEmpty))))
  let cleared := store.terms.filter (fun p => p.1.1 ≠ userId)
  if termEntries.isEmpty then { store with terms := cleared }
  else { store with terms := cleared ++ termEntries.map (fun p => ((userId, p.1), p.2)) }

/-! ## The `POST /api/notes` visibility-terms fragment

`RawTermItem` models one element of `payload.visibilityTerms`:
`term = none` models `item.term` not being a string (the item is filtered out),
`emails = none` models `item.emails` not being an array, and a `none` inside
the email list models a non-string element (mapped to the empty string).
A `none` element of the surrounding list models a falsy item. -/

structure RawTermItem where
  term : Option Str
  emails : Option (List (Option Str))
deriving DecidableEq, Repr

/-- The handler computation of `validTerms`. -/
def validTermsOf (termsIn : List (Option RawTermItem)) : List (Str × List Str) :=
  (termsIn.filterMap (fun it =>
    it.bind (fun item =>
      item.term.map (fun t =>
        (jsTrim t,
          ((item.emails.getD []).map (fun e =>
            match e with
            | some s => jsLower (jsTrim s)
            | none => [])).filter (fun email => email.contains '@')))))).filter
    (fun p => !p.1.isEmpty)

/-- The visibility-terms portion of the `POST /api/notes` handler:
`visibilityTerms = none` models an omitted (or non-array) field.  The store is
updated only when at least one valid term survives validation. -/
def syncTermsStep (userId : Str) (visibilityTerms : Option (List (Option RawTermItem)))
    (store : Store) : Store :=
  let termsIn := visibilityTerms.getD []
  let validTerms := validTermsOf termsIn
  if !validTerms.isEmpty then
    updateVisibilityTermsForUser userId (jsFromEntries validTerms) store
  else store

/-! ## Shared-note discovery (`GET /api/shared-notes`) -/

/-- A row of `listNotesSharedWithEmail` (the coarse substring pre-filter). -/
structure DbSharedNote where
  user_id : Str
  id : Str
  markdown : Str
  source_name : Option Str
  last_modified : Int
deriving DecidableEq, Repr

/-- Candidate row to note record: parse, then override `lastModified` and
`sourceName` from the stored row (the row timestamp is a `BIGINT`, hence always
finite). -/
def mkSharedNote (row : DbSharedNote) : DiaryxNote :=
  let n := parseDiaryxString row.markdown row.id row.source_name 0
  { n with lastModified := row.last_modified, sourceName := row.source_name }

/-- The handler loop: keep access-granted candidates whose id has not been seen
yet, in candidate order. -/
def discoverLoop (email : Str) : List DbSharedNote → List Str → List DiaryxNote
  | [], _ => []
  | row :: rest, seen =>
    let note := mkSharedNote row
    if !hasSharedAccess note email then discoverLoop email rest seen
    else if seen.contains note.id then discoverLoop email rest seen
    else note :: discoverLoop email rest (note.id :: seen)

/-- Lexicographic (code-unit) `≤` on strings; `id.localeCompare` coincides with
it on the ASCII identifiers at issue. -/
def strLe : Str → Str → Bool
  | [], _ => true
  | _ :: _, [] => false
  | a :: as, b :: bs =>
    if a < b then true
    else if a = b then strLe as bs
    else false

/-- The sort comparator `(a, b) => (b.lastModified - a.lastModified) ||
a.id.localeCompare(b.id)` as a total order: `a` may precede `b`. -/
def noteLe (a b : DiaryxNote) : Bool :=
  if b.lastModified < a.lastModified then true
  else if a.lastModified = b.lastModified then strLe a.id b.id
  else false

/-- Insertion into a sorted list. -/
def insertSorted {α : Type} (le : α → α → Bool) (a : α) : List α → List α
  | [] => [a]
  | b :: l => if le a b then a :: b :: l else b :: insertSorted le a l

/-- Insertion sort.  `Array.prototype.sort` guarantees a sequence sorted with
respect to a consistent comparator; on lists whose elements are pairwise
strictly ordered (here: distinct ids) that sequence is unique, so any sorting
algorithm is an exact model. -/
def sortByLe {α : Type} (le : α → α → Bool) (l : List α) : List α :=
  l.foldr (insertSorted le) []

/-- The full `GET /api/shared-notes` computation on a fetched candidate list:
filter by access, deduplicate by id keeping the first occurrence, sort
descending by `lastModified` with ties broken by ascending id. -/
def findSharedWith (email : Str) (rows : List DbSharedNote) : List DiaryxNote :=
  sortByLe noteLe (discoverLoop email rows [])

/-- Access-granted candidates in candidate order (before deduplication). -/
def grantedNotes (email : Str) (rows : List DbSharedNote) : List DiaryxNote :=
  (rows.map mkSharedNote).filter (fun n => hasSharedAccess n email)

/-- Deduplication by note id keeping the first occurrence, avoiding `seen`. -/
def dedupNotesAvoid : List DiaryxNote → List Str → List DiaryxNote
  | [], _ => []
  | n :: ns, seen =>
    if seen.contains n.id then dedupNotesAvoid ns seen
    else n :: dedupNotesAvoid ns (n.id :: seen)

/-! ## Concrete documents, rows and stores used by the scenario claims -/

/-- The Scenario A document, exactly as written in the claim. -/
def docScenarioA : Str := "---\nvisibility: [friends]\n---\nHello".toList

/-- The Scenario A document extended so that the listing of `alice@x.com`
under the term `friends` actually appears in the frontmatter of the note. -/
def docScenarioAFull : Str :=
  "---\nvisibility: [friends]\nvisibility_emails:\n  friends: [alice@x.com]\n---\nHello".toList

/-- The Scenario B block-form document. -/
def docScenarioB : Str :=
  "---\nvisibility:\n  - friends\nvisibility_emails:\n  friends:\n    - alice@x.com\n---\nBody text".toList

/-- A markdown document granting access to `v@x.com` via term `f`. -/
def sharedDoc : Str :=
  "---\nvisibility: [f]\nvisibility_emails:\n  f: [v@x.com]\n---\nhi".toList

/-- Scenario E candidate with id `b`. -/
def rowScenB : DbSharedNote :=
  { user_id := "o1".toList, id := "b".toList, markdown := sharedDoc,
    source_name := none, last_modified := 5 }

/-- Scenario E candidate with id `a` (same `last_modified`). -/
def rowScenA : DbSharedNote :=
  { user_id := "o2".toList, id := "a".toList, markdown := sharedDoc,
    source_name := none, last_modified := 5 }

/-- A store holding one visibility-term row for user `u`. -/
def storeWithTerm : Store :=
  { notes := [], terms := [(("u".toList, "f".toList), ["a@x.com".toList])] }

/-- A store holding one note row `n1` for user `u` at timestamp 100. -/
def storeWithNote : Store :=
  { notes := [(("u".toList, "n1".toList),
      { markdown := "a".toList, source_name := none, last_modified := 100 })],
    terms := [] }

/-! ## Helper lemmas: character and string normalisation -/

theorem jsCharLower_eq_self (c : Char) (h : ¬(65 ≤ c.toNat ∧ c.toNat ≤ 90)) :
    jsCharLower c = c := by
  unfold jsCharLower
  rw [if_neg h]

theorem jsCharLower_toNat_of_upper (c : Char) (h : 65 ≤ c.toNat ∧ c.toNat ≤ 90) :
    (jsCharLower c).toNat = c.toNat + 32 := by
  unfold jsCharLower
  rw [if_pos h, Char.ofNat, dif_pos (by omega)]
  simp [Char.ofNatAux, Char.toNat, UInt32.toNat, BitVec.toNat_ofNatLt]

theorem jsCharLower_idem (c : Char) : jsCharLower (jsCharLower c) = jsCharLower c := by
  by_cases h : 65 ≤ c.toNat ∧ c.toNat ≤ 90
  · have ht := jsCharLower_toNat_of_upper c h
    exact jsCharLower_eq_self _ (by omega)
  · rw [jsCharLower_eq_self c h]
    exact jsCharLower_eq_self c h

theorem jsIsSpace_of_letter (c : Char)
    (h : (65 ≤ c.toNat ∧ c.toNat ≤ 90) ∨ (97 ≤ c.toNat ∧ c.toNat ≤ 122)) :
    jsIsSpace c = false := by
  simp only [jsIsSpace, Bool.or_eq_false_iff, Bool.and_eq_false_iff,
    decide_eq_false_iff_not]
  omega

theorem jsIsSpace_jsCharLower (c : Char) : jsIsSpace (jsCharLower c) = jsIsSpace c := by
  by_cases h : 65 ≤ c.toNat ∧ c.toNat ≤ 90
  · have ht := jsCharLower_toNat_of_upper c h
    rw [jsIsSpace_of_letter c (Or.inl h), jsIsSpace_of_letter _ (Or.inr (by omega))]
  · rw [jsCharLower_eq_self c h]

theorem jsLower_idem (l : Str) : jsLower (jsLower l) = jsLower l := by
  simp only [jsLower, List.map_map]
  exact List.map_congr_left (fun a _ => jsCharLower_idem a)

theorem dropWhile_dropWhile {α : Type} (p : α → Bool) (l : List α) :
    (l.dropWhile p).dropWhile p = l.dropWhile p := by
  induction l with
  | nil => rfl
  | cons a t ih =>
    by_cases h : p a
    · simp [List.dropWhile_cons, h, ih]
    · simp [List.dropWhile_cons, h]

theorem jsTrimStart_jsLower (l : Str) : jsTrimStart (jsLower l) = jsLower (jsTrimStart l) := by
  have hfun : (jsIsSpace ∘ jsCharLower) = jsIsSpace := funext jsIsSpace_jsCharLower
  simp only [jsTrimStart, jsLower, List.dropWhile_map, hfun]

theorem jsTrimEnd_jsLower (l : Str) : jsTrimEnd (jsLower l) = jsLower (jsTrimEnd l) := by
  have hfun : (jsIsSpace ∘ jsCharLower) = jsIsSpace := funext jsIsSpace_jsCharLower
  simp only [jsTrimEnd, jsLower]
  rw [← List.map_reverse, List.dropWhile_map, ← List.map_reverse, hfun]

theorem jsTrim_jsLower (l : Str) : jsTrim (jsLower l) = jsLower (jsTrim l) := by
  rw [jsTrim, jsTrimStart_jsLower, jsTrimEnd_jsLower, jsTrim]

theorem jsTrimEnd_front (l : Str) : jsTrimEnd l <+: l := by
  have h : (jsTrimEnd l).reverse <:+ l.reverse := by
    simp only [jsTrimEnd, List.reverse_reverse]
    exact List.dropWhile_suffix _
  exact List.reverse_suffix.mp h

theorem dropWhile_eq_self_of_front {α : Type} (p : α → Bool) {l₁ l₂ : List α}
    (hpre : l₁ <+: l₂) (h : l₂.dropWhile p = l₂) : l₁.dropWhile p = l₁ := by
  cases l₁ with
  | nil => rfl
  | cons a t =>
    obtain ⟨rest, hrest⟩ := hpre
    subst hrest
    simp only [List.cons_append, List.dropWhile_cons] at h
    have hpa : p a = false := by
      by_cases hp : p a
      · rw [if_pos hp] at h
        have hlen := congrArg List.length h
        have h2 : (t ++ rest).dropWhile p <:+ t ++ rest := List.dropWhile_suffix p
        have h3 := h2.length_le
        simp only [List.length_cons] at hlen
        omega
      · exact Bool.eq_false_iff.mpr hp
    rw [List.dropWhile_cons, hpa]
    simp

theorem jsTrimEnd_jsTrimEnd (l : Str) : jsTrimEnd (jsTrimEnd l) = jsTrimEnd l := by
  simp only [jsTrimEnd, List.reverse_reverse]
  rw [dropWhile_dropWhile]

theorem jsTrim_idem (l : Str) : jsTrim (jsTrim l) = jsTrim l := by
  have hd : (jsTrimStart l).dropWhile jsIsSpace = jsTrimStart l :=
    dropWhile_dropWhile jsIsSpace l
  have hfix : jsTrimStart (jsTrim l) = jsTrim l :=
    dropWhile_eq_self_of_front jsIsSpace (jsTrimEnd_front (jsTrimStart l)) hd
  show jsTrimEnd (jsTrimStart (jsTrim l)) = jsTrim l
  rw [hfix]
  show jsTrimEnd (jsTrimEnd (jsTrimStart l)) = jsTrim l
  rw [jsTrimEnd_jsTrimEnd]
  rfl

/-- The composed normalisation `e.trim().toLowerCase()` is idempotent. -/
theorem emailNorm_idem (s : Str) :
    jsLower (jsTrim (jsLower (jsTrim s))) = jsLower (jsTrim s) := by
  rw [jsTrim_jsLower, jsLower_idem, jsTrim_idem]

theorem mem_jsDedupAux {α : Type} [DecidableEq α] {x : α} :
    ∀ {l seen : List α}, x ∈ jsDedupAux l seen → x ∈ l
  | [], _ => by
    intro h
    simp [jsDedupAux] at h
  | a :: as, seen => by
    intro h
    cases hc : seen.contains a with
    | true =>
      simp only [jsDedupAux, hc, if_true] at h
      exact List.mem_cons_of_mem _ (mem_jsDedupAux h)
    | false =>
      simp only [jsDedupAux, hc, Bool.false_eq_true, if_false] at h
      rcases List.mem_cons.mp h with rfl | h
      · exact List.mem_cons_self _ _
      · exact List.mem_cons_of_mem _ (mem_jsDedupAux h)

theorem mem_jsDedup {α : Type} [DecidableEq α] {a : α} {l : List α}
    (h : a ∈ jsDedup l) : a ∈ l := mem_jsDedupAux h

theorem nodup_jsDedupAux {α : Type} [DecidableEq α] :
    ∀ (l seen : List α), (jsDedupAux l seen).Nodup ∧
      ∀ x ∈ jsDedupAux l seen, x ∉ seen
  | [], _ => ⟨List.Pairwise.nil, by intro x hx; simp [jsDedupAux] at hx⟩
  | a :: as, seen => by
    cases hc : seen.contains a with
    | true =>
      simp only [jsDedupAux, hc, if_true]
      exact nodup_jsDedupAux as seen
    | false =>
      simp only [jsDedupAux, hc, Bool.false_eq_true, if_false]
      obtain ⟨ih1, ih2⟩ := nodup_jsDedupAux as (a :: seen)
      constructor
      · refine List.Nodup.cons (fun hmem => ?_) ih1
        exact (ih2 a hmem) (List.mem_cons_self _ _)
      · intro x hx
        rcases List.mem_cons.mp hx with rfl | hx
        · intro hmem
          rw [← List.elem_iff] at hmem
          rw [show List.elem x seen = seen.contains x from rfl, hc] at hmem
          exact absurd hmem Bool.false_ne_true
        · intro hmem
          exact (ih2 x hx) (List.mem_cons_of_mem _ hmem)

theorem nodup_jsDedup {α : Type} [DecidableEq α] (l : List α) :
    (jsDedup l).Nodup := (nodup_jsDedupAux l []).1

/-! ## Helper lemmas: conditional upsert -/

theorem objGet_condUpsert (rows : List ((Str × Str) × NoteRow)) (key : Str × Str)
    (md : Str) (sn : Option Str) (lm : Int) :
    objGet (condUpsert rows key md sn lm) key =
      match objGet rows key with
      | none => some ⟨md, sn, lm⟩
      | some r => if r.last_modified ≤ lm then some ⟨md, sn, lm⟩ else some r := by
  induction rows with
  | nil => simp [condUpsert, objGet]
  | cons p rest ih =>
    obtain ⟨k, r⟩ := p
    by_cases hk : k = key
    · subst hk
      by_cases hle : r.last_modified ≤ lm
      · simp [condUpsert, hle, objGet, List.find?]
      · simp [condUpsert, hle, objGet, List.find?]
    · simp only [condUpsert, if_neg hk]
      simp only [objGet, List.find?] at ih ⊢
      have hdec : (decide (k = key)) = false := decide_eq_false hk
      rw [hdec]
      simp only [Bool.false_eq_true, if_false]
      exact ih

theorem condUpsert_untouched (rows : List ((Str × Str) × NoteRow)) (key : Str × Str)
    (md : Str) (sn : Option Str) (lm : Int) (r : NoteRow)
    (h : objGet rows key = some r) (hlt : lm < r.last_modified) :
    condUpsert rows key md sn lm = rows := by
  induction rows with
  | nil => simp [objGet] at h
  | cons p rest ih =>
    obtain ⟨k, row⟩ := p
    by_cases hk : k = key
    · subst hk
      simp [objGet, List.find?] at h
      subst h
      simp [condUpsert, not_le.mpr hlt]
    · have hdec : (decide (k = key)) = false := decide_eq_false hk
      simp only [objGet, List.find?, hdec] at h
      simp only [condUpsert, if_neg hk]
      rw [ih h]

/-! ## Helper lemmas: ordering and sorting -/

theorem strLe_total : ∀ a b : Str, strLe a b = true ∨ strLe b a = true
  | [], _ => Or.inl rfl
  | _ :: _, [] => Or.inr rfl
  | a :: as, b :: bs => by
    rcases lt_trichotomy a b with h | h | h
    · left
      simp [strLe, h]
    · subst h
      rcases strLe_total as bs with ih | ih
      · left
        simp [strLe, ih]
      · right
        simp [strLe, ih]
    · right
      simp [strLe, h]

theorem strLe_cons_cons (a b : Char) (as bs : Str) :
    strLe (a :: as) (b :: bs) =
      if a < b then true else if a = b then strLe as bs else false := rfl

theorem strLe_trans : ∀ a b c : Str, strLe a b = true → strLe b c = true →
    strLe a c = true
  | [], _, _ => fun _ _ => rfl
  | _ :: _, [], _ => by intro h _; simp [strLe] at h
  | _ :: _, _ :: _, [] => by intro _ h; simp [strLe] at h
  | a :: as, b :: bs, c :: cs => by
    intro h1 h2
    rcases lt_trichotomy a b with hab | hab | hab
    · rcases lt_trichotomy b c with hbc | hbc | hbc
      · rw [strLe_cons_cons, if_pos (lt_trans hab hbc)]
      · subst hbc
        rw [strLe_cons_cons, if_pos hab]
      · rw [strLe_cons_cons, if_neg (lt_asymm hbc), if_neg (ne_of_gt hbc)] at h2
        exact absurd h2 (by simp)
    · subst hab
      rcases lt_trichotomy a c with hac | hac | hac
      · rw [strLe_cons_cons, if_pos hac]
      · subst hac
        rw [strLe_cons_cons, if_neg (lt_irrefl a), if_pos rfl] at h1 h2 ⊢
        exact strLe_trans as bs cs h1 h2
      · rw [strLe_cons_cons, if_neg (lt_asymm hac), if_neg (ne_of_gt hac)] at h2
        exact absurd h2 (by simp)
    · rw [strLe_cons_cons, if_neg (lt_asymm hab), if_neg (ne_of_gt hab)] at h1
      exact absurd h1 (by simp)

theorem noteLe_total (a b : DiaryxNote) : noteLe a b = true ∨ noteLe b a = true := by
  unfold noteLe
  rcases lt_trichotomy a.lastModified b.lastModified with h | h | h
  · right
    rw [if_pos h]
  · rcases strLe_total a.id b.id with hs | hs
    · left
      rw [if_neg (by omega), if_pos h, hs]
    · right
      rw [if_neg (by omega), if_pos h.symm, hs]
  · left
    rw [if_pos h]

theorem noteLe_trans (a b c : DiaryxNote) (h1 : noteLe a b = true)
    (h2 : noteLe b c = true) : noteLe a c = true := by
  unfold noteLe at h1 h2 ⊢
  by_cases hba : b.lastModified < a.lastModified
  · by_cases hcb : c.lastModified < b.lastModified
    · rw [if_pos (by omega)]
    · simp only [if_neg hcb] at h2
      by_cases hbc : b.lastModified = c.lastModified
      · rw [if_pos (by omega)]
      · simp [hbc] at h2
  · simp only [if_neg hba] at h1
    by_cases hab : a.lastModified = b.lastModified
    · simp only [if_pos hab] at h1
      by_cases hcb : c.lastModified < b.lastModified
      · rw [if_pos (by omega)]
      · simp only [if_neg hcb] at h2
        by_cases hbc : b.lastModified = c.lastModified
        · simp only [if_pos hbc] at h2
          rw [if_neg (by omega), if_pos (by omega)]
          exact strLe_trans _ _ _ h1 h2
        · simp [hbc] at h2
    · simp [hab] at h1

theorem perm_insertSorted {α : Type} (le : α → α → Bool) (a : α) :
    ∀ l : List α, (insertSorted le a l).Perm (a :: l)
  | [] => List.Perm.refl _
  | b :: l => by
    unfold insertSorted
    by_cases h : le a b
    · rw [if_pos h]
    · rw [if_neg h]
      exact ((List.perm_cons b).mpr (perm_insertSorted le a l)).trans
        (List.Perm.swap a b l)

theorem perm_sortByLe {α : Type} (le : α → α → Bool) :
    ∀ l : List α, (sortByLe le l).Perm l
  | [] => List.Perm.refl _
  | a :: l => by
    unfold sortByLe
    rw [List.foldr_cons]
    exact (perm_insertSorted le a _).trans
      ((List.perm_cons a).mpr (perm_sortByLe le l))

theorem mem_insertSorted {α : Type} {le : α → α → Bool} {x a : α} {l : List α}
    (h : x ∈ insertSorted le a l) : x = a ∨ x ∈ l := by
  have := (perm_insertSorted le a l).mem_iff.mp h
  simpa using this

theorem pairwise_insertSorted {α : Type} (le : α → α → Bool)
    (htrans : ∀ a b c, le a b = true → le b c = true → le a c = true)
    (htot : ∀ a b, le a b = true ∨ le b a = true) (a : α) :
    ∀ l : List α, l.Pairwise (le · · = true) →
      (insertSorted le a l).Pairwise (le · · = true)
  | [], _ => List.pairwise_singleton _ _
  | b :: l, hp => by
    rcases List.pairwise_cons.mp hp with ⟨hb, hl⟩
    unfold insertSorted
    by_cases h : le a b
    · rw [if_pos h]
      refine List.Pairwise.cons ?_ hp
      intro x hx
      rcases List.mem_cons.mp hx with rfl | hx
      · exact h
      · exact htrans a b x h (hb x hx)
    · rw [if_neg h]
      have hba : le b a = true := by
        rcases htot a b with h1 | h1
        · exact absurd h1 h
        · exact h1
      refine List.Pairwise.cons ?_ (pairwise_insertSorted le htrans htot a l hl)
      intro x hx
      rcases mem_insertSorted hx with rfl | hx
      · exact hba
      · exact hb x hx

theorem pairwise_sortByLe {α : Type} (le : α → α → Bool)
    (htrans : ∀ a b c, le a b = true → le b c = true → le a c = true)
    (htot : ∀ a b, le a b = true ∨ le b a = true) :
    ∀ l : List α, (sortByLe le l).Pairwise (le · · = true)
  | [] => List.Pairwise.nil
  | a :: l => by
    unfold sortByLe
    rw [List.foldr_cons]
    exact pairwise_insertSorted le htrans htot a _
      (pairwise_sortByLe le htrans htot l)

/-! ## Helper lemmas: shared-note discovery -/

theorem discoverLoop_eq_dedup (email : Str) :
    ∀ (rows : List DbSharedNote) (seen : List Str),
      discoverLoop email rows seen = dedupNotesAvoid (grantedNotes email rows) seen
  | [], _ => rfl
  | row :: rest, seen => by
    cases hacc : hasSharedAccess (mkSharedNote row) email with
    | false =>
      simp only [discoverLoop, grantedNotes, List.map_cons, List.filter_cons, hacc,
        Bool.not_false, if_true, Bool.false_eq_true, if_false]
      exact discoverLoop_eq_dedup email rest seen
    | true =>
      simp only [discoverLoop, grantedNotes, List.map_cons, List.filter_cons, hacc,
        Bool.not_true, Bool.false_eq_true, if_false, if_true, dedupNotesAvoid]
      cases hseen : seen.contains (mkSharedNote row).id with
      | true =>
        simp only [hseen, if_true]
        exact discoverLoop_eq_dedup email rest seen
      | false =>
        simp only [hseen, Bool.false_eq_true, if_false, List.cons.injEq, true_and]
        exact discoverLoop_eq_dedup email rest _

theorem dedupNotesAvoid_ids_nodup :
    ∀ (l : List DiaryxNote) (seen : List Str),
      ((dedupNotesAvoid l seen).map (fun n => n.id)).Nodup ∧
        ∀ x ∈ (dedupNotesAvoid l seen).map (fun n => n.id), x ∉ seen
  | [], _ => ⟨List.Pairwise.nil, by intro x hx; simp [dedupNotesAvoid] at hx⟩
  | n :: ns, seen => by
    cases hseen : seen.contains n.id with
    | true =>
      simp only [dedupNotesAvoid, hseen, if_true]
      exact dedupNotesAvoid_ids_nodup ns seen
    | false =>
      simp only [dedupNotesAvoid, hseen, Bool.false_eq_true, if_false]
      obtain ⟨ih1, ih2⟩ := dedupNotesAvoid_ids_nodup ns (n.id :: seen)
      constructor
      · rw [List.map_cons]
        refine List.Nodup.cons ?_ ih1
        intro hmem
        exact (ih2 n.id hmem) (List.mem_cons_self _ _)
      · intro x hx
        rw [List.map_cons] at hx
        rcases List.mem_cons.mp hx with rfl | hx
        · intro hmem
          rw [← List.elem_iff] at hmem
          rw [show List.elem n.id seen = seen.contains n.id from rfl, hseen] at hmem
          exact absurd hmem Bool.false_ne_true
        · intro hmem
          exact (ih2 x hx) (List.mem_cons_of_mem _ hmem)

theorem mem_discoverLoop_access (email : Str) :
    ∀ (rows : List DbSharedNote) (seen : List Str) (n : DiaryxNote),
      n ∈ discoverLoop email rows seen → hasSharedAccess n email = true
  | [], _, _ => by
    intro h
    simp [discoverLoop] at h
  | row :: rest, seen, n => by
    intro h
    cases hacc : hasSharedAccess (mkSharedNote row) email with
    | false =>
      simp only [discoverLoop, hacc, Bool.not_false, if_true] at h
      exact mem_discoverLoop_access email rest seen n h
    | true =>
      simp only [discoverLoop, hacc, Bool.not_true, Bool.false_eq_true, if_false] at h
      cases hseen : seen.contains (mkSharedNote row).id with
      | true =>
        rw [if_pos (by rw [hseen])] at h
        exact mem_discoverLoop_access email rest seen n h
      | false =>
        rw [if_neg (by rw [hseen]; exact Bool.false_ne_true)] at h
        rcases List.mem_cons.mp h with rfl | h
        · exact hacc
        · exact mem_discoverLoop_access email rest _ n h

/-! ## Helper lemmas: visibility resolver and term storage -/

theorem hasSharedAccess_empty_visibility (note : DiaryxNote) (email : Str)
    (h : toVisibilityArray note.visibility = []) :
    hasSharedAccess note email = false := by
  unfold hasSharedAccess
  rw [h]
  rfl

theorem hasSharedAccess_no_emails (note : DiaryxNote) (email : Str)
    (h : note.visibility_emails = none) :
    hasSharedAccess note email = false := by
  unfold hasSharedAccess
  rw [h]
  cases hvis : (toVisibilityArray note.visibility).isEmpty with
  | true => simp [hvis]
  | false =>
    simp only [hvis, Option.getD_none, Bool.false_eq_true, if_false]
    apply List.any_eq_false.mpr
    intro x _
    simp [objGet]

theorem mem_objSet {κ α : Type} [DecidableEq κ] {q : κ × α} {m : List (κ × α)}
    {k : κ} {v : α} (h : q ∈ objSet m k v) : q ∈ m ∨ q = (k, v) := by
  unfold objSet at h
  by_cases hc : m.any (fun p => p.1 = k)
  · rw [if_pos hc] at h
    rcases List.mem_map.mp h with ⟨p, hp, hpq⟩
    by_cases hk : p.1 = k
    · right
      rw [if_pos hk] at hpq
      exact hpq.symm
    · left
      rw [if_neg hk] at hpq
      exact hpq ▸ hp
  · rw [if_neg hc] at h
    rcases List.mem_append.mp h with h | h
    · exact Or.inl h
    · right
      simpa using h

theorem mem_foldl_objSet {κ α : Type} [DecidableEq κ] {q : κ × α} :
    ∀ (l : List (κ × α)) (acc : List (κ × α)),
      q ∈ l.foldl (fun m p => objSet m p.1 p.2) acc → q ∈ acc ∨ q ∈ l
  | [], acc => fun h => Or.inl h
  | p :: rest, acc => by
    intro h
    rw [List.foldl_cons] at h
    rcases mem_foldl_objSet rest (objSet acc p.1 p.2) h with h | h
    · rcases mem_objSet h with h | h
      · exact Or.inl h
      · right
        rw [h]
        exact List.mem_cons_self _ _
    · exact Or.inr (List.mem_cons_of_mem _ h)

theorem mem_jsFromEntries {κ α : Type} [DecidableEq κ] {q : κ × α}
    {l : List (κ × α)} (h : q ∈ jsFromEntries l) : q ∈ l := by
  rcases mem_foldl_objSet l [] h with h | h
  · exact absurd h (List.not_mem_nil q)
  · exact h

/-- Every stored email list produced by the normalisation in
`updateVisibilityTermsForUser` is duplicate-free, and each element is a fixed
point of trim and lower-case, non-empty, and the image of some input email. -/
theorem storedEntry_props (es : List Str) :
    (jsDedup ((es.map (fun e => jsLower (jsTrim e))).filter
      (fun s => !s.isEmpty))).Nodup ∧
    ∀ e ∈ jsDedup ((es.map (fun e => jsLower (jsTrim e))).filter
      (fun s => !s.isEmpty)),
      jsTrim e = e ∧ jsLower e = e ∧ e ≠ [] ∧ ∃ x ∈ es, e = jsLower (jsTrim x) := by
  refine ⟨nodup_jsDedup _, ?_⟩
  intro e he
  have hmem := mem_jsDedup he
  rcases List.mem_filter.mp hmem with ⟨hmap, hne⟩
  rcases List.mem_map.mp hmap with ⟨x, hx, hex⟩
  subst hex
  refine ⟨?_, ?_, ?_, ⟨x, hx, rfl⟩⟩
  · rw [jsTrim_jsLower, jsTrim_idem]
  · exact jsLower_idem _
  · intro hnil
    rw [hnil] at hne
    simp at hne

/-- Shape of the email lists produced by the `POST /api/notes` handler
validation: every email contains `@` and is the trim-lower normalisation of
some submitted string. -/
theorem validTermsOf_email_shape (items : List (Option RawTermItem)) (t : Str)
    (es : List Str) (h : (t, es) ∈ validTermsOf items) :
    ∀ e ∈ es, e.contains '@' = true ∧ ∃ s : Str, e = jsLower (jsTrim s) := by
  unfold validTermsOf at h
  rcases List.mem_filter.mp h with ⟨hmem, _⟩
  rcases List.mem_filterMap.mp hmem with ⟨it, _, hit⟩
  rcases Option.bind_eq_some.mp hit with ⟨item, _, hmap⟩
  rcases Option.map_eq_some'.mp hmap with ⟨t0, _, heq⟩
  have hes : es = ((item.emails.getD []).map (fun e =>
      match e with
      | some s => jsLower (jsTrim s)
      | none => [])).filter (fun email => email.contains '@') := by
    have := congrArg Prod.snd heq
    simpa using this.symm
  subst hes
  intro e he
  rcases List.mem_filter.mp he with ⟨hmap2, hat⟩
  refine ⟨hat, ?_⟩
  rcases List.mem_map.mp hmap2 with ⟨x, _, hex⟩
  cases x with
  | some s => exact ⟨s, hex.symm⟩
  | none => exact ⟨[], hex.symm⟩

/-! ## Claim theorems -/

/-- C1 (counterexample): for the document
`---\nvisibility: [friends]\n---\nHello` parsed into a note, `hasSharedAccess`
returns `false` even for `alice@x.com` — the document carries no
`visibility_emails` mapping, so nobody is listed under `friends` in the only
place the resolver consults, and the claimed `true` outcome is impossible. -/
theorem scenarioA_counterexample :
    hasSharedAccess (parseDiaryxString docScenarioA "n1".toList none 0)
      "alice@x.com".toList = false := by
  decide

/-- C1 (amended): when the listing of `alice@x.com` under `friends` is placed
where the resolver reads it — the `visibility_emails` mapping of the note own
frontmatter — `canView` (`hasSharedAccess`) of the parsed note returns `true`
for `alice@x.com` and `false` for the unlisted `bob@x.com`. -/
theorem scenarioA_amended :
    hasSharedAccess (parseDiaryxString docScenarioAFull "n1".toList none 0)
        "alice@x.com".toList = true ∧
    hasSharedAccess (parseDiaryxString docScenarioAFull "n1".toList none 0)
        "bob@x.com".toList = false := by
  constructor
  · decide
  · decide

/-- C6: the block-form document of Scenario B parses to
`visibility = ["friends"]` and a `visibility_emails` mapping sending `friends`
to `["alice@x.com"]`. -/
theorem scenarioB_block_parse :
    (parseDiaryxString docScenarioB "n1".toList none 0).visibility
        = some (VisValue.arr ["friends".toList]) ∧
    (parseDiaryxString docScenarioB "n1".toList none 0).visibility_emails
        = some [("friends".toList, ["alice@x.com".toList])] := by
  constructor
  · decide
  · decide

/-- C8: a document not beginning with `---`, or beginning with `---` but not
matching the delimiter-newline-metadata-newline-delimiter shape, is returned
whole as the body with the metadata absent, and parsing the absent metadata
block yields no fields; all functions involved are total, so no error can be
raised. -/
theorem splitter_degrades_to_body :
    (∀ D : Str, startsWithDashes D = false → extractFrontmatter D = (none, D)) ∧
    (∀ D : Str, startsWithDashes D = true → fmMatch D = none →
      extractFrontmatter D = (none, D)) ∧
    parseYamlSubset none = {} := by
  refine ⟨?_, ?_, rfl⟩
  · intro D h
    simp [extractFrontmatter, h]
  · intro D h hm
    simp [extractFrontmatter, h, hm]

/-- Witness for C8 at concrete inputs: a dash-free document and a document with
an unterminated frontmatter block. -/
theorem splitter_degrades_to_body_witness :
    extractFrontmatter "Hello world".toList = (none, "Hello world".toList) ∧
    extractFrontmatter "---\nno closing".toList = (none, "---\nno closing".toList) :=
  ⟨splitter_degrades_to_body.1 _ (by decide),
   splitter_degrades_to_body.2.1 _ (by decide) (by decide)⟩

/-- C9: when the note own frontmatter yields no `visibility_emails` mapping,
`hasSharedAccess` returns `false` for every viewer, regardless of the visibility
term list of the note.  The only inputs of the resolver are the note record and the
viewer email — it never takes the stored `diaryx_visibility_term`
rows (`hasSharedAccess` closes over no store state in the source). -/
theorem access_needs_note_embedded_emails :
    ∀ (note : DiaryxNote) (email : Str), note.visibility_emails = none →
      hasSharedAccess note email = false :=
  fun note email h => hasSharedAccess_no_emails note email h

/-- Witness for C9: the Scenario A note has a non-empty visibility list but no
embedded email mapping, and access is denied. -/
theorem access_needs_note_embedded_emails_witness :
    hasSharedAccess (parseDiaryxString docScenarioA "n1".toList none 0)
      "anyone@x.com".toList = false :=
  access_needs_note_embedded_emails _ _ (by decide)

/-- C10: `upsertNotesForUser` with a null or empty notes list returns before
touching the store: the resulting store — every note row and every
visibility-term row of every user — is the input store. -/
theorem upsert_empty_is_no_op :
    ∀ (now : Int) (uid : Str) (st : Store),
      upsertNotesForUser now uid none st = st ∧
      upsertNotesForUser now uid (some []) st = st :=
  fun _ _ _ => ⟨rfl, rfl⟩

/-- C5: a note whose `visibility` normalises to the empty list (in particular
an absent `visibility`) is denied for every viewer email, and every note in the
discovery output passed the access check, so such a note never appears there. -/
theorem empty_visibility_is_private :
    (∀ (note : DiaryxNote) (email : Str),
      toVisibilityArray note.visibility = [] →
        hasSharedAccess note email = false) ∧
    (∀ (email : Str) (rows : List DbSharedNote) (n : DiaryxNote),
      n ∈ findSharedWith email rows → hasSharedAccess n email = true) := by
  constructor
  · exact hasSharedAccess_empty_visibility
  · intro email rows n hn
    have hperm : (findSharedWith email rows).Perm (discoverLoop email rows []) :=
      perm_sortByLe _ _
    exact mem_discoverLoop_access email rows [] n (hperm.mem_iff.mp hn)

/-- Witness for C5: a plain document with no metadata is denied, and a note in
a concrete discovery output indeed passes the access check. -/
theorem empty_visibility_is_private_witness :
    hasSharedAccess (parseDiaryxString "Hello".toList "n".toList none 0)
        "a@x.com".toList = false ∧
    hasSharedAccess (mkSharedNote rowScenA) "v@x.com".toList = true :=
  ⟨empty_visibility_is_private.1 _ _ (by decide),
   empty_visibility_is_private.2 "v@x.com".toList [rowScenA] _ (by decide)⟩

/-- C2: for a stored note with timestamp `T`, an incoming upsert with timestamp
`T'` replaces the stored markdown, sourceName and lastModified exactly when
`T' >= T`; when `T' < T` the whole store is left untouched (and the function is
total — no error path exists).  The Scenario C instance follows: upserting `n1`
at 100 then at 50 leaves the first write with `lastModified = 100`. -/
theorem merge_monotonic :
    (∀ (now : Int) (uid nid md' : Str) (sn' : Option Str) (T' : Int) (st : Store)
        (r : NoteRow), noteLookup st uid nid = some r →
      (r.last_modified ≤ T' →
        noteLookup (upsertNotesForUser now uid
          (some [⟨nid, md', sn', some T'⟩]) st) uid nid = some ⟨md', sn', T'⟩) ∧
      (T' < r.last_modified →
        upsertNotesForUser now uid (some [⟨nid, md', sn', some T'⟩]) st = st)) ∧
    noteLookup
      (upsertNotesForUser 0 "u".toList
        (some [⟨"n1".toList, "second".toList, none, some 50⟩])
        (upsertNotesForUser 0 "u".toList
          (some [⟨"n1".toList, "first".toList, none, some 100⟩]) emptyStore))
      "u".toList "n1".toList = some ⟨"first".toList, none, 100⟩ := by
  constructor
  · intro now uid nid md' sn' T' st r h
    have hred : upsertNotesForUser now uid (some [⟨nid, md', sn', some T'⟩]) st
        = { st with notes := condUpsert st.notes (uid, nid) md' sn' T' } := rfl
    unfold noteLookup at h
    constructor
    · intro hle
      rw [hred]
      show objGet (condUpsert st.notes (uid, nid) md' sn' T') (uid, nid) = _
      rw [objGet_condUpsert, h]
      simp [hle]
    · intro hlt
      rw [hred, condUpsert_untouched st.notes (uid, nid) md' sn' T' r h hlt]
  · decide

/-- Witness for C2 at concrete inputs: timestamp 150 overwrites the stored
timestamp-100 row; timestamp 50 leaves the store untouched. -/
theorem merge_monotonic_witness :
    noteLookup (upsertNotesForUser 0 "u".toList
        (some [⟨"n1".toList, "b".toList, none, some 150⟩]) storeWithNote)
      "u".toList "n1".toList = some ⟨"b".toList, none, 150⟩ ∧
    upsertNotesForUser 0 "u".toList
        (some [⟨"n1".toList, "c".toList, none, some 50⟩]) storeWithNote
      = storeWithNote :=
  ⟨(merge_monotonic.1 0 "u".toList "n1".toList "b".toList none 150 storeWithNote
      ⟨"a".toList, none, 100⟩ (by decide)).1 (by decide),
   (merge_monotonic.1 0 "u".toList "n1".toList "c".toList none 50 storeWithNote
      ⟨"a".toList, none, 100⟩ (by decide)).2 (by decide)⟩

/-- C3 (counterexample): a sync call that includes an empty `visibilityTerms`
list does NOT delete the stored terms of the owner — the handler guard
`if (validTerms.length)` skips `updateVisibilityTermsForUser` entirely, so the
pre-existing term row of user `u` survives unchanged, contradicting the claimed
clearing. -/
theorem syncTerms_empty_counterexample :
    syncTermsStep "u".toList (some []) storeWithTerm = storeWithTerm ∧
    storeWithTerm.terms = [(("u".toList, "f".toList), ["a@x.com".toList])] := by
  exact ⟨rfl, rfl⟩

/-- C3 (amended): a sync call that omits `visibilityTerms` leaves the stored
terms untouched; a sync call that includes an empty list ALSO leaves them
untouched (the handler only calls the replacement when at least one valid term
survives validation, so this endpoint cannot clear the term set); when the
validated set is non-empty the term rows of the owner are replaced wholesale —
delete-all-then-insert — and the resulting owner rows are a function of the
submitted set alone, never a merge with the previous rows. -/
theorem syncTerms_behaviour :
    (∀ (uid : Str) (st : Store), syncTermsStep uid none st = st) ∧
    (∀ (uid : Str) (st : Store), syncTermsStep uid (some []) st = st) ∧
    (∀ (uid : Str) (items : List (Option RawTermItem)) (st : Store),
      validTermsOf items ≠ [] →
      syncTermsStep uid (some items) st =
        updateVisibilityTermsForUser uid (jsFromEntries (validTermsOf items)) st) ∧
    (∀ (uid : Str) (tm : List (Str × List Str)) (st : Store),
      (updateVisibilityTermsForUser uid tm st).terms.filter
          (fun p => p.1.1 = uid) =
        (tm.map (fun q => (q.1, jsDedup ((q.2.map (fun e => jsLower (jsTrim e))).filter
          (fun s => !s.isEmpty))))).map (fun q => ((uid, q.1), q.2))) := by
  refine ⟨fun _ _ => rfl, fun _ _ => rfl, ?_, ?_⟩
  · intro uid items st h
    unfold syncTermsStep
    simp only [Option.getD_some]
    rw [List.isEmpty_eq_false.mpr h]
    rfl
  · intro uid tm st
    unfold updateVisibilityTermsForUser
    have hcl : (st.terms.filter (fun p => p.1.1 ≠ uid)).filter
        (fun p => p.1.1 = uid) = [] := by
      rw [List.filter_filter]
      apply List.filter_eq_nil_iff.mpr
      intro a _
      by_cases hx : a.1.1 = uid <;> simp [hx]
    by_cases he : (tm.map (fun q => (q.1, jsDedup ((q.2.map
        (fun e => jsLower (jsTrim e))).filter (fun s => !s.isEmpty))))).isEmpty
    · rw [if_pos he]
      rw [List.isEmpty_iff, List.map_eq_nil_iff] at he
      subst he
      simp only [List.map_nil]
      exact hcl
    · rw [if_neg he]
      simp only [List.filter_append, hcl, List.nil_append]
      apply List.filter_eq_self.mpr
      intro a ha
      rcases List.mem_map.mp ha with ⟨q, _, hq⟩
      subst hq
      simp

/-- Witness for C3 at concrete inputs: omitted and empty-list calls preserve a
store with one term row; a one-valid-term call goes through the wholesale
replacement. -/
theorem syncTerms_behaviour_witness :
    syncTermsStep "u".toList none storeWithTerm = storeWithTerm ∧
    syncTermsStep "u".toList (some []) storeWithTerm = storeWithTerm ∧
    syncTermsStep "u".toList
        (some [some ⟨some "g".toList, some [some "a@x.com".toList]⟩]) storeWithTerm
      = updateVisibilityTermsForUser "u".toList
          (jsFromEntries (validTermsOf
            [some ⟨some "g".toList, some [some "a@x.com".toList]⟩])) storeWithTerm :=
  ⟨syncTerms_behaviour.1 _ _, syncTerms_behaviour.2.1 _ _,
   syncTerms_behaviour.2.2.1 _ _ _ (by decide)⟩

/-- Any row of the replaced store that belongs to the updating user is one of
the freshly normalised entries. -/
theorem update_owner_entry {uid : Str} {tm : List (Str × List Str)} {st : Store}
    {p : (Str × Str) × List Str}
    (hmem : p ∈ (updateVisibilityTermsForUser uid tm st).terms)
    (howner : p.1.1 = uid) :
    ∃ t es, (t, es) ∈ tm ∧
      p = ((uid, t), jsDedup ((es.map (fun e => jsLower (jsTrim e))).filter
        (fun s => !s.isEmpty))) := by
  unfold updateVisibilityTermsForUser at hmem
  have hcl : p ∉ st.terms.filter (fun q => q.1.1 ≠ uid) := by
    intro hc
    have := (List.mem_filter.mp hc).2
    simp [howner] at this
  by_cases he : (tm.map (fun q => (q.1, jsDedup ((q.2.map
      (fun e => jsLower (jsTrim e))).filter (fun s => !s.isEmpty))))).isEmpty
  · rw [if_pos he] at hmem
    exact absurd hmem hcl
  · rw [if_neg he] at hmem
    rcases List.mem_append.mp hmem with hmem | hmem
    · exact absurd hmem hcl
    · rcases List.mem_map.mp hmem with ⟨q, hq, hpq⟩
      rcases List.mem_map.mp hq with ⟨r, hr, hqr⟩
      subst hqr
      exact ⟨r.1, r.2, hr, hpq.symm⟩

/-- C4: every email list stored in a visibility-term row by the update path is
deduplicated with empty strings discarded and each email a fixed point of trim
and lower-casing; through the `POST /api/notes` handler every stored email
moreover contains an `@` (submitted emails without `@` are rejected and never
stored — a row that predates the call can only survive untouched). -/
theorem stored_term_emails_normalised :
    (∀ (uid : Str) (tm : List (Str × List Str)) (st : Store)
        (p : (Str × Str) × List Str),
      p ∈ (updateVisibilityTermsForUser uid tm st).terms → p.1.1 = uid →
        p.2.Nodup ∧ ∀ e ∈ p.2, jsTrim e = e ∧ jsLower e = e ∧ e ≠ []) ∧
    (∀ (uid : Str) (items : List (Option RawTermItem)) (st : Store)
        (p : (Str × Str) × List Str),
      p ∈ (syncTermsStep uid (some items) st).terms → p.1.1 = uid →
        p ∈ st.terms ∨
          (p.2.Nodup ∧ ∀ e ∈ p.2,
            jsTrim e = e ∧ jsLower e = e ∧ e.contains '@' = true)) := by
  constructor
  · intro uid tm st p hmem howner
    rcases update_owner_entry hmem howner with ⟨t, es, _, hp⟩
    have hprops := storedEntry_props es
    rw [hp]
    refine ⟨hprops.1, ?_⟩
    intro e he
    rcases hprops.2 e he with ⟨h1, h2, h3, _⟩
    exact ⟨h1, h2, h3⟩
  · intro uid items st p hmem howner
    by_cases hv : (validTermsOf items).isEmpty
    · left
      unfold syncTermsStep at hmem
      simp only [Option.getD_some, hv, Bool.not_true, Bool.false_eq_true,
        if_false] at hmem
      exact hmem
    · right
      unfold syncTermsStep at hmem
      simp only [Option.getD_some, hv, Bool.not_false, if_true] at hmem
      rcases update_owner_entry hmem howner with ⟨t, es, hts, hp⟩
      have hshape := validTermsOf_email_shape items t es (mem_jsFromEntries hts)
      have hprops := storedEntry_props es
      rw [hp]
      refine ⟨hprops.1, ?_⟩
      intro e he
      rcases hprops.2 e he with ⟨h1, h2, _, x, hx, hex⟩
      rcases hshape x hx with ⟨hat, s, hs⟩
      have hfix : e = x := by
        rw [hex, hs, emailNorm_idem, ← hs]
      exact ⟨h1, h2, hfix ▸ hat⟩

/-- Witness for C4 at a concrete input: the handler path stores
`" A@X.com "` as the single normalised email `a@x.com`. -/
theorem stored_term_emails_normalised_witness :
    ((("u".toList, "g".toList), ["a@x.com".toList]) :
        (Str × Str) × List Str).2.Nodup ∧
    (∀ e ∈ ((("u".toList, "g".toList), ["a@x.com".toList]) :
        (Str × Str) × List Str).2, jsTrim e = e ∧ jsLower e = e ∧ e ≠ []) :=
  stored_term_emails_normalised.1 "u".toList [("g".toList, [" A@X.com ".toList])]
    storeWithTerm (("u".toList, "g".toList), ["a@x.com".toList])
    (by decide) (by decide)

/-- C7: the discovery output never repeats a note id; what survives is the
first access-granted candidate of each id in `candidateRows` order (the output
is a permutation of the first-occurrence deduplication of the access-granted
candidates); the output is sorted descending by `lastModified` with ties broken
by ascending lexical id; and the Scenario E instance — two granted candidates
with equal `lastModified` and ids `b`, `a` — comes out ordered `[a, b]`. -/
theorem discovery_dedup_sorted :
    (∀ (email : Str) (rows : List DbSharedNote),
      ((findSharedWith email rows).map (fun n => n.id)).Nodup ∧
      (findSharedWith email rows).Pairwise (fun a b => noteLe a b = true) ∧
      (findSharedWith email rows).Perm
        (dedupNotesAvoid (grantedNotes email rows) [])) ∧
    (findSharedWith "v@x.com".toList [rowScenB, rowScenA]).map (fun n => n.id)
      = ["a".toList, "b".toList] := by
  constructor
  · intro email rows
    have hperm : (findSharedWith email rows).Perm (discoverLoop email rows []) :=
      perm_sortByLe _ _
    have heq := discoverLoop_eq_dedup email rows []
    refine ⟨?_, ?_, heq ▸ hperm⟩
    · have hnd := (dedupNotesAvoid_ids_nodup (grantedNotes email rows) []).1
      have hmapperm : ((findSharedWith email rows).map (fun n => n.id)).Perm
          ((dedupNotesAvoid (grantedNotes email rows) []).map (fun n => n.id)) :=
        (heq ▸ hperm).map _
      exact (hmapperm.nodup_iff).mpr hnd
    · exact pairwise_sortByLe noteLe noteLe_trans noteLe_total _
  · decide
